import Mathlib

/-!
Verification of the fixed-capacity LRU cache and memoizing wrappers
(`genricLRU.py`).  The `OrderedDict` backing store is embedded as an
association list whose order encodes recency: the least-recently-used
entry sits at the front, the most-recently-used at the back.
-/

namespace GenericLRU

/-- Keys of an association list, in recency order (least-recently-used first).
This is the key sequence of the `OrderedDict`. -/
def keysOf {K V : Type} (l : List (K × V)) : List K :=
  l.map Prod.fst

/-- Membership test `key in od` on the association list modelling the `OrderedDict`. -/
def containsKey {K V : Type} [DecidableEq K] (k : K) : List (K × V) → Bool
  | [] => false
  | p :: rest => if p.1 = k then true else containsKey k rest

/-- Indexing `od[key]`: the value of the first pair carrying the given key,
`none` when the key is absent. -/
def lookupVal {K V : Type} [DecidableEq K] (k : K) : List (K × V) → Option V
  | [] => none
  | p :: rest => if p.1 = k then some p.2 else lookupVal k rest

/-- The `od.move_to_end(key)` operation: the first pair carrying the given key
moves to the back (most-recently-used position); other pairs keep their order.
On an absent key it is the identity (the source only calls it on present keys). -/
def moveToEnd {K V : Type} [DecidableEq K] (k : K) : List (K × V) → List (K × V)
  | [] => []
  | p :: rest => if p.1 = k then rest ++ [p] else p :: moveToEnd k rest

/-- Removal of the first pair carrying the given key; helper used to describe
`moveToEnd` and eviction. -/
def removeKey {K V : Type} [DecidableEq K] (k : K) : List (K × V) → List (K × V)
  | [] => []
  | p :: rest => if p.1 = k then rest else p :: removeKey k rest

/-- Assignment `od[key] = value` on the `OrderedDict`: overwrite the first pair
carrying the key in place (keeping its position), append a fresh pair at the
back otherwise. -/
def setValue {K V : Type} [DecidableEq K] (k : K) (v : V) : List (K × V) → List (K × V)
  | [] => [(k, v)]
  | p :: rest => if p.1 = k then (k, v) :: rest else p :: setValue k v rest

/-- The `LRUCache` dataclass: a capacity (a Python `int`, so an `Int`) and the
ordered mapping.  The dataclass performs no validation of the capacity. -/
structure LRUCache (K V : Type) where
  capacity : Int
  cache : List (K × V)

/-- Construction `LRUCache(capacity=c)`: the dataclass ctor with the default
empty `OrderedDict`; it accepts any integer capacity. -/
def mkLRUCache {K V : Type} (capacity : Int) : LRUCache K V :=
  ⟨capacity, []⟩

/-- The method `LRUCache.get`: return `None` when the key is absent, otherwise
move the key to the most-recently-used position and return its value.  The
first component is the Python return value (`none` standing for Python `None`
on a miss), the second the updated store. -/
def LRUCache.get {K V : Type} [DecidableEq K] (s : LRUCache K V) (k : K) :
    Option V × LRUCache K V :=
  if containsKey k s.cache then
    (lookupVal k (moveToEnd k s.cache), ⟨s.capacity, moveToEnd k s.cache⟩)
  else
    (none, s)

/-- The method `LRUCache.put`: move an existing key to the back, assign the
value, then evict the least-recently-used (front) entry when the size exceeds
the capacity. -/
def LRUCache.put {K V : Type} [DecidableEq K] (s : LRUCache K V) (k : K) (v : V) :
    LRUCache K V :=
  let l0 := if containsKey k s.cache then moveToEnd k s.cache else s.cache
  let l1 := setValue k v l0
  let l2 := if s.capacity < (l1.length : Int) then l1.tail else l1
  ⟨s.capacity, l2⟩

/-- The method `LRUCache.__contains__`: pure membership probe, no mutation. -/
def LRUCache.containsb {K V : Type} [DecidableEq K] (s : LRUCache K V) (k : K) : Bool :=
  containsKey k s.cache

/-- The method `LRUCache.__len__`: the number of resident entries. -/
def LRUCache.size {K V : Type} (s : LRUCache K V) : Nat :=
  s.cache.length

/-- Key of the most-recently-used entry (the back of the order), if any. -/
def mruKey {K V : Type} (s : LRUCache K V) : Option K :=
  (s.cache.getLast?).map Prod.fst

/-- The Python-observable return value of `get` when stored values may
themselves be `None` (modelled as `Option U`): Python returns the single
object `None` both for a miss and for a stored `None`, so the two layers
collapse. -/
def LRUCache.getPy {K U : Type} [DecidableEq K] (s : LRUCache K (Option U)) (k : K) :
    Option U × LRUCache K (Option U) :=
  ((s.get k).1.join, (s.get k).2)

/-- A public operation on the store, for stating invariants over arbitrary
operation sequences. -/
inductive Op (K V : Type) where
  | get (k : K)
  | put (k : K) (v : V)
  | contains (k : K)
  | size

/-- State transition of one public operation (`contains` and `size` are
read-only probes). -/
def applyOp {K V : Type} [DecidableEq K] (s : LRUCache K V) : Op K V → LRUCache K V
  | Op.get k => (s.get k).2
  | Op.put k v => s.put k v
  | Op.contains _ => s
  | Op.size => s

/-- Run a sequence of public operations. -/
def runOps {K V : Type} [DecidableEq K] (s : LRUCache K V) (ops : List (Op K V)) :
    LRUCache K V :=
  ops.foldl applyOp s

/-- Run a sequence of `put` operations given as key-value pairs. -/
def runPuts {K V : Type} [DecidableEq K] (s : LRUCache K V) (kvs : List (K × V)) :
    LRUCache K V :=
  kvs.foldl (fun t p => t.put p.1 p.2) s

/-- The cache key `(args, frozenset(kwargs.items()))` derived by the wrappers:
positional arguments kept in order, keyword arguments as a finite set of
(name, value) pairs. -/
def deriveKey {A : Type} [DecidableEq A] (args : List A) (kwargs : List (String × A)) :
    List A × Finset (String × A) :=
  (args, kwargs.toFinset)

/-- Failures a wrapper call can surface: the `TypeError` Python raises while
hashing an unhashable argument during key construction or lookup, or an
exception raised by the underlying function. -/
inductive PyError (E : Type) where
  | typeError
  | userError (e : E)
deriving DecidableEq

/-- State threaded through wrapped calls: the shared `LRUCache` plus a counter
of how many times the underlying function has been invoked (the observable
side effect used by the specification). -/
structure WrapState (A V : Type) where
  cache : LRUCache (List A × Finset (String × A)) V
  calls : Nat

/-- The synchronous memoizing wrapper produced by `cached`: derive the key
(raising `TypeError` when an argument value is unhashable, before the
underlying function can run), return the cached value on a hit, otherwise
invoke the underlying function, store its result on success, and propagate a
failure without storing anything.  The first result component is the Python
return value (`Option V` because a hit returns whatever `cache.get` returns). -/
def wrapper {A V E : Type} [DecidableEq A] (hashable : A → Bool)
    (f : List A → List (String × A) → Except E V)
    (st : WrapState A V) (args : List A) (kwargs : List (String × A)) :
    Except (PyError E) (Option V) × WrapState A V :=
  if args.all hashable && kwargs.all (fun p => hashable p.2) then
    let key := deriveKey args kwargs
    if containsKey key st.cache.cache then
      (Except.ok (st.cache.get key).1, ⟨(st.cache.get key).2, st.calls⟩)
    else
      match f args kwargs with
      | Except.error e => (Except.error (PyError.userError e), ⟨st.cache, st.calls + 1⟩)
      | Except.ok v => (Except.ok (some v), ⟨st.cache.put key v, st.calls + 1⟩)
  else
    (Except.error PyError.typeError, st)

/-- The asynchronous memoizing wrapper produced by `async_cached`: the body is
the same as the synchronous one, with the underlying invocation awaited; in
this sequential model the await is transparent, so the step function
coincides line for line with the synchronous wrapper. -/
def asyncWrapper {A V E : Type} [DecidableEq A] (hashable : A → Bool)
    (f : List A → List (String × A) → Except E V)
    (st : WrapState A V) (args : List A) (kwargs : List (String × A)) :
    Except (PyError E) (Option V) × WrapState A V :=
  if args.all hashable && kwargs.all (fun p => hashable p.2) then
    let key := deriveKey args kwargs
    if containsKey key st.cache.cache then
      (Except.ok (st.cache.get key).1, ⟨(st.cache.get key).2, st.calls⟩)
    else
      match f args kwargs with
      | Except.error e => (Except.error (PyError.userError e), ⟨st.cache, st.calls + 1⟩)
      | Except.ok v => (Except.ok (some v), ⟨st.cache.put key v, st.calls + 1⟩)
  else
    (Except.error PyError.typeError, st)

/-! Basic lemmas about the association-list primitives. -/

theorem containsKey_iff_mem {K V : Type} [DecidableEq K] (k : K) (l : List (K × V)) :
    containsKey k l = true ↔ k ∈ keysOf l := by
  induction l with
  | nil => simp [containsKey, keysOf]
  | cons p rest ih =>
    obtain ⟨a, b⟩ := p
    simp only [containsKey, keysOf, List.map_cons, List.mem_cons]
    by_cases h : a = k
    · subst h
      simp
    · rw [if_neg h, ih]
      constructor
      · exact fun hk => Or.inr hk
      · rintro (hk | hk)
        · exact absurd hk.symm h
        · exact hk

theorem containsKey_eq_false_iff {K V : Type} [DecidableEq K] (k : K) (l : List (K × V)) :
    containsKey k l = false ↔ k ∉ keysOf l := by
  rw [← containsKey_iff_mem]
  cases containsKey k l <;> simp

theorem containsKey_append {K V : Type} [DecidableEq K] (k : K) (l m : List (K × V)) :
    containsKey k (l ++ m) = (containsKey k l || containsKey k m) := by
  induction l with
  | nil => simp [containsKey]
  | cons p rest ih =>
    by_cases h : p.1 = k <;> simp [containsKey, h, ih]

theorem lookupVal_append_right {K V : Type} [DecidableEq K] (k : K) {l : List (K × V)}
    (m : List (K × V)) (h : containsKey k l = false) :
    lookupVal k (l ++ m) = lookupVal k m := by
  induction l with
  | nil => simp
  | cons p rest ih =>
    by_cases hp : p.1 = k
    · simp [containsKey, hp] at h
    · simp [containsKey, hp] at h
      simp [lookupVal, hp, ih h]

theorem lookupVal_isSome_of_containsKey {K V : Type} [DecidableEq K] (k : K)
    {l : List (K × V)} (h : containsKey k l = true) : (lookupVal k l).isSome = true := by
  induction l with
  | nil => simp [containsKey] at h
  | cons p rest ih =>
    by_cases hp : p.1 = k
    · simp [lookupVal, hp]
    · simp [containsKey, hp] at h
      simp [lookupVal, hp, ih h]

theorem setValue_of_not_contains {K V : Type} [DecidableEq K] (k : K) (v : V)
    {l : List (K × V)} (h : containsKey k l = false) : setValue k v l = l ++ [(k, v)] := by
  induction l with
  | nil => simp [setValue]
  | cons p rest ih =>
    by_cases hp : p.1 = k
    · simp [containsKey, hp] at h
    · simp [containsKey, hp] at h
      simp [setValue, hp, ih h]

theorem setValue_append_last {K V : Type} [DecidableEq K] (k : K) (v w : V)
    {m : List (K × V)} (h : containsKey k m = false) :
    setValue k v (m ++ [(k, w)]) = m ++ [(k, v)] := by
  induction m with
  | nil => simp [setValue]
  | cons p rest ih =>
    by_cases hp : p.1 = k
    · simp [containsKey, hp] at h
    · simp [containsKey, hp] at h
      simp [setValue, hp, ih h]

theorem length_setValue_of_contains {K V : Type} [DecidableEq K] (k : K) (v : V)
    {l : List (K × V)} (h : containsKey k l = true) :
    (setValue k v l).length = l.length := by
  induction l with
  | nil => simp [containsKey] at h
  | cons p rest ih =>
    by_cases hp : p.1 = k
    · simp [setValue, hp]
    · simp [containsKey, hp] at h
      simp [setValue, hp, ih h]

theorem length_setValue_of_not_contains {K V : Type} [DecidableEq K] (k : K) (v : V)
    {l : List (K × V)} (h : containsKey k l = false) :
    (setValue k v l).length = l.length + 1 := by
  rw [setValue_of_not_contains k v h]
  simp

theorem setValue_ne_nil {K V : Type} [DecidableEq K] (k : K) (v : V) (l : List (K × V)) :
    setValue k v l ≠ [] := by
  cases l with
  | nil => simp [setValue]
  | cons p rest =>
    by_cases hp : p.1 = k <;> simp [setValue, hp]

theorem moveToEnd_eq_removeKey {K V : Type} [DecidableEq K] (k : K) {l : List (K × V)}
    (h : containsKey k l = true) :
    ∃ w, lookupVal k l = some w ∧ moveToEnd k l = removeKey k l ++ [(k, w)] := by
  induction l with
  | nil => simp [containsKey] at h
  | cons p rest ih =>
    by_cases hp : p.1 = k
    · refine ⟨p.2, ?_, ?_⟩
      · simp [lookupVal, hp]
      · simp [moveToEnd, removeKey, hp]
        rw [← hp]
    · simp [containsKey, hp] at h
      obtain ⟨w, hw1, hw2⟩ := ih h
      refine ⟨w, ?_, ?_⟩
      · simp [lookupVal, hp, hw1]
      · simp [moveToEnd, removeKey, hp, hw2]

theorem length_moveToEnd {K V : Type} [DecidableEq K] (k : K) {l : List (K × V)}
    (h : containsKey k l = true) : (moveToEnd k l).length = l.length := by
  induction l with
  | nil => simp [containsKey] at h
  | cons p rest ih =>
    by_cases hp : p.1 = k
    · simp [moveToEnd, hp]
    · simp [containsKey, hp] at h
      simp [moveToEnd, hp, ih h]

theorem moveToEnd_perm {K V : Type} [DecidableEq K] (k : K) (l : List (K × V)) :
    (moveToEnd k l).Perm l := by
  induction l with
  | nil => simp [moveToEnd]
  | cons p rest ih =>
    by_cases hp : p.1 = k
    · simp only [moveToEnd, hp, if_pos]
      exact List.perm_append_singleton p rest
    · simp only [moveToEnd, hp, if_neg, not_false_iff]
      exact ih.cons p

theorem containsKey_eq_of_perm {K V : Type} [DecidableEq K] (k : K) {l m : List (K × V)}
    (h : l.Perm m) : containsKey k l = containsKey k m := by
  have hm : k ∈ keysOf l ↔ k ∈ keysOf m := (h.map Prod.fst).mem_iff
  rcases Bool.eq_false_or_eq_true (containsKey k m) with h1 | h1
  · rw [h1]
    rw [containsKey_iff_mem] at h1
    rw [containsKey_iff_mem]
    exact hm.mpr h1
  · rw [h1]
    rw [containsKey_eq_false_iff] at h1
    rw [containsKey_eq_false_iff]
    exact fun hk => h1 (hm.mp hk)

theorem keysOf_perm_cons_removeKey {K V : Type} [DecidableEq K] (k : K) {l : List (K × V)}
    (h : containsKey k l = true) : (keysOf l).Perm (k :: keysOf (removeKey k l)) := by
  induction l with
  | nil => simp [containsKey] at h
  | cons p rest ih =>
    by_cases hp : p.1 = k
    · simp [keysOf, removeKey, hp]
    · simp [containsKey, hp] at h
      have := (ih h).cons p.1
      simp only [keysOf, removeKey, hp, if_neg, not_false_iff, List.map_cons]
      exact this.trans (List.Perm.swap k p.1 _)

theorem not_containsKey_removeKey {K V : Type} [DecidableEq K] (k : K) {l : List (K × V)}
    (hnd : (keysOf l).Nodup) : containsKey k (removeKey k l) = false := by
  induction l with
  | nil => simp [removeKey, containsKey]
  | cons p rest ih =>
    simp only [keysOf, List.map_cons, List.nodup_cons] at hnd
    by_cases hp : p.1 = k
    · simp only [removeKey, hp, if_pos]
      rw [containsKey_eq_false_iff]
      rw [← hp]
      exact hnd.1
    · simp only [removeKey, hp, if_neg, not_false_iff, containsKey]
      exact ih hnd.2

theorem tail_append_of_ne_nil {α : Type} {l : List α} (m : List α) (h : l ≠ []) :
    (l ++ m).tail = l.tail ++ m := by
  cases l with
  | nil => exact absurd rfl h
  | cons a rest => simp

/-! Structural lemmas for the store operations. -/

theorem lookupVal_moveToEnd {K V : Type} [DecidableEq K] (k : K) {l : List (K × V)}
    (hnd : (keysOf l).Nodup) (h : containsKey k l = true) :
    lookupVal k (moveToEnd k l) = lookupVal k l := by
  obtain ⟨w, hw, hmove⟩ := moveToEnd_eq_removeKey k h
  rw [hmove, lookupVal_append_right k _ (not_containsKey_removeKey k hnd), hw]
  simp [lookupVal]

theorem nodup_keys_moveToEnd {K V : Type} [DecidableEq K] (k : K) {l : List (K × V)}
    (hnd : (keysOf l).Nodup) : (keysOf (moveToEnd k l)).Nodup :=
  ((moveToEnd_perm k l).map Prod.fst).nodup_iff.mpr hnd

theorem containsKey_moveToEnd {K V : Type} [DecidableEq K] (a k : K) (l : List (K × V)) :
    containsKey a (moveToEnd k l) = containsKey a l :=
  containsKey_eq_of_perm a (moveToEnd_perm k l)

theorem get_found {K V : Type} [DecidableEq K] {s : LRUCache K V} {k : K}
    (h : containsKey k s.cache = true) :
    s.get k = (lookupVal k (moveToEnd k s.cache), ⟨s.capacity, moveToEnd k s.cache⟩) := by
  simp [LRUCache.get, h]

theorem get_miss {K V : Type} [DecidableEq K] {s : LRUCache K V} {k : K}
    (h : containsKey k s.cache = false) : s.get k = (none, s) := by
  simp [LRUCache.get, h]

theorem capacity_get {K V : Type} [DecidableEq K] (s : LRUCache K V) (k : K) :
    ((s.get k).2).capacity = s.capacity := by
  by_cases hc : containsKey k s.cache = true <;> simp [LRUCache.get, hc]

theorem capacity_put {K V : Type} [DecidableEq K] (s : LRUCache K V) (k : K) (v : V) :
    (s.put k v).capacity = s.capacity := rfl

theorem length_get {K V : Type} [DecidableEq K] (s : LRUCache K V) (k : K) :
    ((s.get k).2).cache.length = s.cache.length := by
  by_cases hc : containsKey k s.cache = true
  · simp [LRUCache.get, hc, length_moveToEnd k hc]
  · simp [LRUCache.get, hc]

theorem put_fresh {K V : Type} [DecidableEq K] {s : LRUCache K V} {k : K} (v : V)
    (h : containsKey k s.cache = false) :
    (s.put k v).cache =
      if s.capacity < ((s.cache.length : Int) + 1) then (s.cache ++ [(k, v)]).tail
      else s.cache ++ [(k, v)] := by
  have hcap : (s.put k v).cache =
      (if s.capacity < ((setValue k v (if containsKey k s.cache then moveToEnd k s.cache
          else s.cache)).length : Int)
       then (setValue k v (if containsKey k s.cache then moveToEnd k s.cache
          else s.cache)).tail
       else setValue k v (if containsKey k s.cache then moveToEnd k s.cache else s.cache)) :=
    rfl
  rw [hcap]
  have h0 : (if containsKey k s.cache then moveToEnd k s.cache else s.cache) = s.cache := by
    rw [if_neg]
    rw [h]
    simp
  rw [h0, setValue_of_not_contains k v h]
  have h1 : (((s.cache ++ [(k, v)]).length : Nat) : Int) = (s.cache.length : Int) + 1 := by
    simp
  rw [h1]

theorem put_existing {K V : Type} [DecidableEq K] {s : LRUCache K V} {k : K} (v : V)
    (hnd : (keysOf s.cache).Nodup) (h : containsKey k s.cache = true)
    (hle : (s.cache.length : Int) ≤ s.capacity) :
    (s.put k v).cache = removeKey k s.cache ++ [(k, v)] := by
  obtain ⟨w, hw, hmove⟩ := moveToEnd_eq_removeKey k h
  have hnc : containsKey k (removeKey k s.cache) = false := not_containsKey_removeKey k hnd
  have hsv : setValue k v (moveToEnd k s.cache) = removeKey k s.cache ++ [(k, v)] := by
    rw [hmove]
    exact setValue_append_last k v w hnc
  have hlen : (removeKey k s.cache ++ [(k, v)]).length = s.cache.length := by
    have h1 : (removeKey k s.cache ++ [(k, w)]).length = s.cache.length := by
      rw [← hmove]
      exact length_moveToEnd k h
    simpa using h1
  have hcap : (s.put k v).cache =
      (if s.capacity < ((setValue k v (if containsKey k s.cache then moveToEnd k s.cache
          else s.cache)).length : Int)
       then (setValue k v (if containsKey k s.cache then moveToEnd k s.cache
          else s.cache)).tail
       else setValue k v (if containsKey k s.cache then moveToEnd k s.cache else s.cache)) :=
    rfl
  rw [hcap]
  have h0 : (if containsKey k s.cache then moveToEnd k s.cache else s.cache)
      = moveToEnd k s.cache := by
    rw [if_pos]
    rw [h]
  rw [h0, hsv, hlen]
  rw [if_neg (not_lt.mpr hle)]

theorem length_setValue_le {K V : Type} [DecidableEq K] (k : K) (v : V) (l : List (K × V)) :
    (setValue k v l).length ≤ l.length + 1 := by
  rcases Bool.eq_false_or_eq_true (containsKey k l) with hc | hc
  · rw [length_setValue_of_contains k v hc]
    omega
  · rw [length_setValue_of_not_contains k v hc]

theorem length_put_le {K V : Type} [DecidableEq K] (s : LRUCache K V) (k : K) (v : V)
    (h : (s.cache.length : Int) ≤ s.capacity) :
    ((s.put k v).cache.length : Int) ≤ s.capacity := by
  have hlen0 : (if containsKey k s.cache then moveToEnd k s.cache else s.cache).length
      = s.cache.length := by
    by_cases hc : containsKey k s.cache = true
    · rw [if_pos hc]
      exact length_moveToEnd k hc
    · rw [if_neg hc]
  have hcap : (s.put k v).cache =
      (if s.capacity < ((setValue k v (if containsKey k s.cache then moveToEnd k s.cache
          else s.cache)).length : Int)
       then (setValue k v (if containsKey k s.cache then moveToEnd k s.cache
          else s.cache)).tail
       else setValue k v (if containsKey k s.cache then moveToEnd k s.cache else s.cache)) :=
    rfl
  rw [hcap]
  have hlen1 : (setValue k v (if containsKey k s.cache then moveToEnd k s.cache
      else s.cache)).length ≤ s.cache.length + 1 := by
    calc (setValue k v _).length
        ≤ (if containsKey k s.cache then moveToEnd k s.cache else s.cache).length + 1 :=
          length_setValue_le k v _
      _ = s.cache.length + 1 := by rw [hlen0]
  have hpos : 1 ≤ (setValue k v (if containsKey k s.cache then moveToEnd k s.cache
      else s.cache)).length :=
    List.length_pos.mpr (setValue_ne_nil k v _)
  by_cases hov : s.capacity < ((setValue k v (if containsKey k s.cache then moveToEnd k s.cache
      else s.cache)).length : Int)
  · rw [if_pos hov]
    rw [List.length_tail]
    have hcast : (((setValue k v (if containsKey k s.cache then moveToEnd k s.cache
        else s.cache)).length - 1 : Nat) : Int)
        = ((setValue k v (if containsKey k s.cache then moveToEnd k s.cache
          else s.cache)).length : Int) - 1 := by
      omega
    rw [hcast]
    have hc2 : ((setValue k v (if containsKey k s.cache then moveToEnd k s.cache
        else s.cache)).length : Int) ≤ (s.cache.length : Int) + 1 := by
      exact_mod_cast hlen1
    omega
  · rw [if_neg hov]
    omega

theorem capacity_applyOp {K V : Type} [DecidableEq K] (s : LRUCache K V) (op : Op K V) :
    (applyOp s op).capacity = s.capacity := by
  cases op with
  | get k => exact capacity_get s k
  | put k v => rfl
  | contains k => rfl
  | size => rfl

theorem length_applyOp_le {K V : Type} [DecidableEq K] (s : LRUCache K V) (op : Op K V)
    (h : (s.cache.length : Int) ≤ s.capacity) :
    ((applyOp s op).cache.length : Int) ≤ s.capacity := by
  cases op with
  | get k =>
    have := length_get s k
    simp only [applyOp, this]
    exact h
  | put k v => exact length_put_le s k v h
  | contains k => exact h
  | size => exact h

theorem keysOf_append {K V : Type} (l m : List (K × V)) :
    keysOf (l ++ m) = keysOf l ++ keysOf m := by
  simp [keysOf]

theorem keysOf_cons {K V : Type} (p : K × V) (l : List (K × V)) :
    keysOf (p :: l) = p.1 :: keysOf l := rfl

theorem keysOf_tail {K V : Type} (l : List (K × V)) : keysOf l.tail = (keysOf l).tail := by
  simp [keysOf, List.map_tail]

/-- C1: for every LRU store constructed with a positive capacity and every finite
sequence of get/put/contains/size operations, the number of resident entries is at
most the capacity after each operation completes (every prefix of a sequence is
itself a sequence, so this bounds the size after each step). -/
theorem lru_size_invariant {K V : Type} [DecidableEq K] (cap : Int) (hcap : 0 < cap)
    (ops : List (Op K V)) :
    ((runOps (mkLRUCache cap) ops).cache.length : Int) ≤ cap := by
  have main : ∀ (l : List (Op K V)) (s : LRUCache K V), s.capacity = cap →
      (s.cache.length : Int) ≤ cap → ((runOps s l).cache.length : Int) ≤ cap := by
    intro l
    induction l with
    | nil =>
      intro s _ hl
      exact hl
    | cons op rest ih =>
      intro s hc hl
      have h1 : ((applyOp s op).cache.length : Int) ≤ cap := by
        rw [← hc]
        exact length_applyOp_le s op (by rw [hc]; exact hl)
      have h2 : (applyOp s op).capacity = cap := by
        rw [capacity_applyOp s op]
        exact hc
      exact ih (applyOp s op) h2 h1
  exact main ops (mkLRUCache cap) rfl
    (by simp only [mkLRUCache, List.length_nil, Nat.cast_zero]; omega)

theorem lru_size_invariant_witness :
    (0 : Int) < 2 ∧ ((runOps (mkLRUCache 2 : LRUCache Nat Nat)
      [Op.put 1 10, Op.put 2 20, Op.put 3 30, Op.get 1]).cache.length : Int) ≤ 2 :=
  ⟨by decide, lru_size_invariant 2 (by decide) [Op.put 1 10, Op.put 2 20, Op.put 3 30, Op.get 1]⟩

/-- Putting a list of pairwise-fresh keys: the resulting order is the suffix of the
appended list that fits in the capacity, everything before it having been evicted
from the front. -/
theorem runPuts_fresh {K V : Type} [DecidableEq K] :
    ∀ (kvs : List (K × V)) (s : LRUCache K V) (c : Nat), s.capacity = (c : Int) →
      s.cache.length ≤ c → (keysOf s.cache ++ keysOf kvs).Nodup →
      (runPuts s kvs).cache = (s.cache ++ kvs).drop (s.cache.length + kvs.length - c) := by
  intro kvs
  induction kvs with
  | nil =>
    intro s c hc hl _
    simp only [runPuts, List.foldl_nil, List.append_nil, List.length_nil, Nat.add_zero]
    rw [Nat.sub_eq_zero_of_le hl, List.drop_zero]
  | cons kv rest ih =>
    intro s c hc hl hnd
    obtain ⟨k, v⟩ := kv
    have hnd2 : (keysOf s.cache ++ (k :: keysOf rest)).Nodup := hnd
    have hfresh : containsKey k s.cache = false := by
      rw [containsKey_eq_false_iff]
      rw [List.nodup_append] at hnd2
      exact fun hk => hnd2.2.2 hk (List.mem_cons_self k (keysOf rest))
    have hnd2 : (keysOf s.cache ++ (k :: keysOf rest)).Nodup := hnd
    have hput := put_fresh v hfresh
    have hstep : runPuts s ((k, v) :: rest) = runPuts (s.put k v) rest := rfl
    by_cases hov : s.capacity < ((s.cache.length : Int) + 1)
    · -- overflow: the store was exactly full, the front entry is evicted
      have hfull : s.cache.length = c := by
        rw [hc] at hov
        omega
      rw [if_pos hov] at hput
      have hne : s.cache ++ [(k, v)] ≠ [] := by simp
      have hlen1 : (s.put k v).cache.length = c := by
        rw [hput, List.length_tail]
        simp [hfull]
      have hnd1 : (keysOf (s.put k v).cache ++ keysOf rest).Nodup := by
        rw [hput, keysOf_tail, keysOf_append]
        have hne2 : keysOf s.cache ++ keysOf [(k, v)] ≠ [] := by simp [keysOf]
        rw [← tail_append_of_ne_nil (keysOf rest) hne2]
        have heq : (keysOf s.cache ++ keysOf [(k, v)]) ++ keysOf rest
            = keysOf s.cache ++ (k :: keysOf rest) := by
          simp [keysOf]
        rw [heq]
        exact List.Nodup.sublist (List.tail_sublist _) hnd2
      have hihr := ih (s.put k v) c (by rw [capacity_put]; exact hc) (by omega) hnd1
      rw [hstep, hihr, hput]
      have hlen2 : (s.cache ++ [(k, v)]).tail.length = c := by
        rw [List.length_tail]
        simp [hfull]
      rw [hlen2]
      have heq2 : (s.cache ++ [(k, v)]).tail ++ rest = (s.cache ++ ((k, v) :: rest)).tail := by
        rw [← tail_append_of_ne_nil rest hne]
        simp
      rw [heq2]
      have hidx : c + rest.length - c = rest.length := by omega
      rw [hidx]
      rw [← List.drop_one, List.drop_drop]
      have hidx2 : s.cache.length + ((k, v) :: rest).length - c = 1 + rest.length := by
        simp only [List.length_cons]
        omega
      rw [hidx2]
    · -- no overflow: the new pair is appended, nothing is evicted
      rw [if_neg hov] at hput
      have hle1 : s.cache.length + 1 ≤ c := by
        rw [hc] at hov
        omega
      have hlen1 : (s.put k v).cache.length = s.cache.length + 1 := by
        rw [hput]
        simp
      have hnd1 : (keysOf (s.put k v).cache ++ keysOf rest).Nodup := by
        rw [hput, keysOf_append]
        have heq : (keysOf s.cache ++ keysOf [(k, v)]) ++ keysOf rest
            = keysOf s.cache ++ (k :: keysOf rest) := by
          simp [keysOf]
        rw [heq]
        exact hnd2
      have hihr := ih (s.put k v) c (by rw [capacity_put]; exact hc) (by omega) hnd1
      rw [hstep, hihr, hput]
      have heq2 : (s.cache ++ [(k, v)]) ++ rest = s.cache ++ ((k, v) :: rest) := by
        simp
      rw [heq2]
      have hidx : (s.cache ++ [(k, v)]).length + rest.length - c
          = s.cache.length + ((k, v) :: rest).length - c := by
        simp only [List.length_append, List.length_cons, List.length_nil]
        omega
      rw [hidx]

theorem keysOf_map_pair {K V : Type} (vals : K → V) (l : List K) :
    keysOf (l.map (fun k => (k, vals k))) = l := by
  induction l with
  | nil => rfl
  | cons a rest ih => simp [keysOf] at ih ⊢; exact ih

/-- C3: after putting capacity + 1 distinct keys in order into an initially empty
store with no intervening get, the first key is no longer resident and every key
from the second onward is resident. -/
theorem lru_eviction_order {K V : Type} [DecidableEq K] (c : Nat) (_hc : 1 ≤ c)
    (k1 : K) (krest : List K) (vals : K → V)
    (hnd : (k1 :: krest).Nodup) (hlen : (k1 :: krest).length = c + 1) :
    ((runPuts (mkLRUCache (c : Int)) ((k1 :: krest).map (fun k => (k, vals k)))).containsb k1
      = false)
    ∧ ∀ k ∈ krest,
      (runPuts (mkLRUCache (c : Int)) ((k1 :: krest).map (fun k => (k, vals k)))).containsb k
      = true := by
  have hnodup : (keysOf (mkLRUCache (c : Int) : LRUCache K V).cache
      ++ keysOf ((k1 :: krest).map (fun k => (k, vals k)))).Nodup := by
    rw [keysOf_map_pair]
    simpa [mkLRUCache, keysOf] using hnd
  have hlen0 : (mkLRUCache (c : Int) : LRUCache K V).cache.length ≤ c := by
    simp [mkLRUCache]
  have hmain := runPuts_fresh ((k1 :: krest).map (fun k => (k, vals k)))
      (mkLRUCache (c : Int)) c rfl hlen0 hnodup
  have hkl : krest.length = c := by
    simpa using hlen
  have hcache : (runPuts (mkLRUCache (c : Int) : LRUCache K V)
      ((k1 :: krest).map (fun k => (k, vals k)))).cache
      = krest.map (fun k => (k, vals k)) := by
    rw [hmain]
    simp only [mkLRUCache, List.nil_append, List.length_nil, List.length_map,
      List.length_cons, List.map_cons, hkl, Nat.zero_add]
    have hone : c + 1 - c = 1 := by omega
    rw [hone]
    rfl
  constructor
  · simp only [LRUCache.containsb, hcache]
    rw [containsKey_eq_false_iff, keysOf_map_pair]
    exact (List.nodup_cons.mp hnd).1
  · intro k hk
    simp only [LRUCache.containsb, hcache]
    rw [containsKey_iff_mem, keysOf_map_pair]
    exact hk

theorem lru_eviction_order_witness :
    ((runPuts (mkLRUCache ((2 : Nat) : Int) : LRUCache Nat Nat)
        (((1 : Nat) :: [2, 3]).map (fun k => (k, k * 10)))).containsb 1 = false)
    ∧ ∀ k ∈ [2, 3],
      (runPuts (mkLRUCache ((2 : Nat) : Int) : LRUCache Nat Nat)
        (((1 : Nat) :: [2, 3]).map (fun k => (k, k * 10)))).containsb k = true :=
  lru_eviction_order 2 (by decide) 1 [2, 3] (fun k => k * 10) (by decide) (by decide)

theorem cache_get_found {K V : Type} [DecidableEq K] {s : LRUCache K V} {k : K}
    (h : containsKey k s.cache = true) :
    ((s.get k).2).cache = moveToEnd k s.cache := by
  rw [get_found h]

theorem mruKey_put_existing {K V : Type} [DecidableEq K] {s : LRUCache K V} {k : K} (v : V)
    (hnd : (keysOf s.cache).Nodup) (h : containsKey k s.cache = true)
    (hle : (s.cache.length : Int) ≤ s.capacity) :
    mruKey (s.put k v) = some k := by
  simp only [mruKey]
  rw [put_existing v hnd h hle, List.getLast?_concat]
  rfl

theorem mruKey_get_existing {K V : Type} [DecidableEq K] {s : LRUCache K V} {k : K}
    (h : containsKey k s.cache = true) :
    mruKey ((s.get k).2) = some k := by
  obtain ⟨w, hw, hmove⟩ := moveToEnd_eq_removeKey k h
  simp only [mruKey]
  rw [cache_get_found h, hmove, List.getLast?_concat]
  rfl

/-- C5: putting an already-resident key overwrites its value and makes it the
most-recently-used entry; no entry is evicted — the key set is preserved (as a
permutation) and the size is unchanged, so only insertion of a new key can evict. -/
theorem put_overwrite_no_eviction {K V : Type} [DecidableEq K] (s : LRUCache K V)
    (k : K) (v : V)
    (hnd : (keysOf s.cache).Nodup) (h : s.containsb k = true)
    (hle : ((s.size : Nat) : Int) ≤ s.capacity) :
    lookupVal k (s.put k v).cache = some v
    ∧ mruKey (s.put k v) = some k
    ∧ (keysOf (s.put k v).cache).Perm (keysOf s.cache)
    ∧ (s.put k v).size = s.size := by
  have hck : containsKey k s.cache = true := h
  have hle2 : (s.cache.length : Int) ≤ s.capacity := hle
  have hcache := put_existing v hnd hck hle2
  have hperm : (keysOf (s.put k v).cache).Perm (keysOf s.cache) := by
    rw [hcache, keysOf_append]
    have h1 : keysOf ([(k, v)] : List (K × V)) = [k] := rfl
    rw [h1]
    exact (List.perm_append_singleton k _).trans (keysOf_perm_cons_removeKey k hck).symm
  refine ⟨?_, mruKey_put_existing v hnd hck hle2, hperm, ?_⟩
  · rw [hcache, lookupVal_append_right k _ (not_containsKey_removeKey k hnd)]
    simp [lookupVal]
  · have hl := hperm.length_eq
    simpa [keysOf, LRUCache.size] using hl

theorem put_overwrite_no_eviction_witness :
    lookupVal 1 ((((mkLRUCache 2 : LRUCache Nat Nat).put 1 10).put 2 20).put 1 99).cache
      = some 99
    ∧ mruKey ((((mkLRUCache 2 : LRUCache Nat Nat).put 1 10).put 2 20).put 1 99) = some 1
    ∧ (keysOf ((((mkLRUCache 2 : LRUCache Nat Nat).put 1 10).put 2 20).put 1 99).cache).Perm
        (keysOf (((mkLRUCache 2 : LRUCache Nat Nat).put 1 10).put 2 20).cache)
    ∧ ((((mkLRUCache 2 : LRUCache Nat Nat).put 1 10).put 2 20).put 1 99).size
        = (((mkLRUCache 2 : LRUCache Nat Nat).put 1 10).put 2 20).size :=
  put_overwrite_no_eviction (((mkLRUCache 2 : LRUCache Nat Nat).put 1 10).put 2 20) 1 99
    (by decide) (by decide) (by decide)

/-- C4 counterexample: on a full store of capacity 1, getting the resident key 0
and then putting the fresh key 5 evicts key 0 itself — the just-accessed key is the
least-recently-used entry after the access, so "never evicts k itself" fails. -/
theorem get_then_put_evicts_accessed_key_cap1 :
    ((mkLRUCache 1 : LRUCache Nat Nat).put 0 0).size = 1
    ∧ ((mkLRUCache 1 : LRUCache Nat Nat).put 0 0).capacity = 1
    ∧ ((mkLRUCache 1 : LRUCache Nat Nat).put 0 0).containsb 0 = true
    ∧ (((((mkLRUCache 1 : LRUCache Nat Nat).put 0 0).get 0).2).put 5 5).containsb 0 = false := by
  decide

/-- C4 (amended): on a full store with capacity at least two, a get of a resident
key k followed by a put of one fresh key evicts exactly the entry that is
least-recently-used after the access — the front of the order — and that entry is
not k; for capacity one the accessed key is itself the LRU after the access and is
evicted.  In general a get or put referencing an existing key makes that key the
most-recently-used entry. -/
theorem get_protects_then_evicts_lru {K V : Type} [DecidableEq K] (s : LRUCache K V)
    (k knew : K) (vnew : V)
    (hnd : (keysOf s.cache).Nodup)
    (hcap2 : 2 ≤ s.capacity)
    (hfull : (s.cache.length : Int) = s.capacity)
    (hk : s.containsb k = true)
    (hnew : s.containsb knew = false) :
    (((s.get k).2.put knew vnew).cache = ((s.get k).2).cache.tail ++ [(knew, vnew)])
    ∧ ((s.get k).2.put knew vnew).containsb k = true
    ∧ ((s.get k).2.put knew vnew).containsb knew = true
    ∧ (∀ p, ((s.get k).2).cache.head? = some p →
        ((s.get k).2.put knew vnew).containsb p.1 = false)
    ∧ mruKey ((s.get k).2) = some k
    ∧ (∀ (t : LRUCache K V) (k2 : K), t.containsb k2 = true →
        mruKey ((t.get k2).2) = some k2)
    ∧ (∀ (t : LRUCache K V) (k2 : K) (v2 : V), (keysOf t.cache).Nodup →
        t.containsb k2 = true → (t.cache.length : Int) ≤ t.capacity →
        mruKey (t.put k2 v2) = some k2) := by
  have hck : containsKey k s.cache = true := hk
  have hcnew : containsKey knew s.cache = false := hnew
  have hs1 : ((s.get k).2).cache = moveToEnd k s.cache := cache_get_found hck
  have hs1cap : ((s.get k).2).capacity = s.capacity := capacity_get s k
  have hs1len : ((s.get k).2).cache.length = s.cache.length := length_get s k
  have hlen2 : 2 ≤ s.cache.length := by
    have : ((2 : Nat) : Int) ≤ (s.cache.length : Int) := by
      rw [hfull]
      exact_mod_cast hcap2
    exact_mod_cast this
  have hs1ne : ((s.get k).2).cache ≠ [] := by
    intro hnil
    rw [hnil] at hs1len
    simp at hs1len
    omega
  have hfresh1 : containsKey knew ((s.get k).2).cache = false := by
    rw [hs1, containsKey_moveToEnd]
    exact hcnew
  have hput := put_fresh vnew hfresh1
  have hov : ((s.get k).2).capacity < (((s.get k).2).cache.length : Int) + 1 := by
    rw [hs1cap, hs1len, hfull]
    omega
  rw [if_pos hov] at hput
  have hmain : ((s.get k).2.put knew vnew).cache
      = ((s.get k).2).cache.tail ++ [(knew, vnew)] := by
    rw [hput, ← tail_append_of_ne_nil [(knew, vnew)] hs1ne]
  obtain ⟨w, hw, hmove⟩ := moveToEnd_eq_removeKey k hck
  have hrne : removeKey k s.cache ≠ [] := by
    intro hnil
    have hlmove := length_moveToEnd k hck
    rw [hmove, hnil] at hlmove
    simp at hlmove
    omega
  have htail : ((s.get k).2).cache.tail = (removeKey k s.cache).tail ++ [(k, w)] := by
    rw [hs1, hmove, tail_append_of_ne_nil [(k, w)] hrne]
  have hnd1 : (keysOf ((s.get k).2).cache).Nodup := by
    rw [hs1]
    exact nodup_keys_moveToEnd k hnd
  refine ⟨hmain, ?_, ?_, ?_, mruKey_get_existing hck, ?_, ?_⟩
  · show containsKey k ((s.get k).2.put knew vnew).cache = true
    rw [hmain, htail, containsKey_append, containsKey_append]
    have : containsKey k [(k, w)] = true := by simp [containsKey]
    rw [this]
    simp
  · show containsKey knew ((s.get k).2.put knew vnew).cache = true
    rw [hmain, containsKey_append]
    have : containsKey knew [(knew, vnew)] = true := by simp [containsKey]
    rw [this]
    simp
  · intro p hp
    show containsKey p.1 ((s.get k).2.put knew vnew).cache = false
    cases hc : ((s.get k).2).cache with
    | nil => rw [hc] at hp; simp at hp
    | cons q t =>
      rw [hc] at hp
      simp only [List.head?_cons, Option.some.injEq] at hp
      subst hp
      rw [hmain, hc]
      simp only [List.tail_cons]
      rw [containsKey_append]
      have h1 : containsKey q.1 t = false := by
        rw [hc, keysOf_cons] at hnd1
        rw [containsKey_eq_false_iff]
        exact (List.nodup_cons.mp hnd1).1
      have h2 : containsKey q.1 [(knew, vnew)] = false := by
        have hpm : q.1 ∈ keysOf ((s.get k).2).cache := by
          rw [hc, keysOf_cons]
          exact List.mem_cons_self q.1 _
        have hne2 : knew ≠ q.1 := by
          intro he
          rw [containsKey_eq_false_iff] at hfresh1
          rw [he] at hfresh1
          exact hfresh1 hpm
        simp [containsKey, hne2]
      rw [h1, h2]
      simp
  · intro t k2 hk2
    exact mruKey_get_existing hk2
  · intro t k2 v2 hnd2 hk2 hle2
    exact mruKey_put_existing v2 hnd2 hk2 hle2

theorem get_protects_then_evicts_lru_witness :
    ((((((mkLRUCache 2 : LRUCache Nat Nat).put 1 10).put 2 20).get 1).2.put 3 30).cache
      = ((((mkLRUCache 2 : LRUCache Nat Nat).put 1 10).put 2 20).get 1).2.cache.tail
        ++ [(3, 30)])
    ∧ (((((mkLRUCache 2 : LRUCache Nat Nat).put 1 10).put 2 20).get 1).2.put 3 30).containsb 1
      = true
    ∧ (((((mkLRUCache 2 : LRUCache Nat Nat).put 1 10).put 2 20).get 1).2.put 3 30).containsb 3
      = true
    ∧ (∀ p, ((((mkLRUCache 2 : LRUCache Nat Nat).put 1 10).put 2 20).get 1).2.cache.head?
          = some p →
        (((((mkLRUCache 2 : LRUCache Nat Nat).put 1 10).put 2 20).get 1).2.put 3 30).containsb
          p.1 = false)
    ∧ mruKey ((((mkLRUCache 2 : LRUCache Nat Nat).put 1 10).put 2 20).get 1).2 = some 1
    ∧ (∀ (t : LRUCache Nat Nat) (k2 : Nat), t.containsb k2 = true →
        mruKey ((t.get k2).2) = some k2)
    ∧ (∀ (t : LRUCache Nat Nat) (k2 : Nat) (v2 : Nat), (keysOf t.cache).Nodup →
        t.containsb k2 = true → (t.cache.length : Int) ≤ t.capacity →
        mruKey (t.put k2 v2) = some k2) :=
  get_protects_then_evicts_lru (((mkLRUCache 2 : LRUCache Nat Nat).put 1 10).put 2 20) 1 3 30
    (by decide) (by decide) (by decide) (by decide) (by decide)

theorem moveToEnd_last {K V : Type} [DecidableEq K] (k : K) (w : V) {m : List (K × V)}
    (h : containsKey k m = false) : moveToEnd k (m ++ [(k, w)]) = m ++ [(k, w)] := by
  induction m with
  | nil => simp [moveToEnd]
  | cons p rest ih =>
    by_cases hp : p.1 = k
    · simp [containsKey, hp] at h
    · simp [containsKey, hp] at h
      simp [moveToEnd, hp, ih h]

theorem containsKey_of_lookupVal {K V : Type} [DecidableEq K] {k : K} {l : List (K × V)}
    {v : V} (h : lookupVal k l = some v) : containsKey k l = true := by
  induction l with
  | nil => simp [lookupVal] at h
  | cons p rest ih =>
    by_cases hp : p.1 = k
    · simp [containsKey, hp]
    · simp [lookupVal, hp] at h
      simp [containsKey, hp]
      exact ih h

/-- C2: for a pure underlying function, a store of capacity at least one, hashable
arguments and a derived key that is not yet resident, two successive wrapper calls
with identical arguments invoke the underlying function exactly once, and both
calls return the result of that single invocation. -/
theorem memoized_call_invokes_once {A V E : Type} [DecidableEq A]
    (hashable : A → Bool) (g : List A → List (String × A) → V)
    (st : WrapState A V) (args : List A) (kwargs : List (String × A))
    (hhash : (args.all hashable && kwargs.all (fun p => hashable p.2)) = true)
    (hcap : 1 ≤ st.cache.capacity)
    (hmiss : containsKey (deriveKey args kwargs) st.cache.cache = false) :
    ((wrapper (E := E) hashable (fun a kw => Except.ok (g a kw)) st args kwargs).1
      = Except.ok (some (g args kwargs)))
    ∧ ((wrapper (E := E) hashable (fun a kw => Except.ok (g a kw))
        (wrapper (E := E) hashable (fun a kw => Except.ok (g a kw)) st args kwargs).2
        args kwargs).1 = Except.ok (some (g args kwargs)))
    ∧ ((wrapper (E := E) hashable (fun a kw => Except.ok (g a kw))
        (wrapper (E := E) hashable (fun a kw => Except.ok (g a kw)) st args kwargs).2
        args kwargs).2.calls = st.calls + 1) := by
  have h1 : wrapper (E := E) hashable (fun a kw => Except.ok (g a kw)) st args kwargs
      = (Except.ok (some (g args kwargs)),
         ⟨st.cache.put (deriveKey args kwargs) (g args kwargs), st.calls + 1⟩) := by
    simp [wrapper, hhash, hmiss]
  obtain ⟨m, hm, hmc⟩ : ∃ m, containsKey (deriveKey args kwargs) m = false
      ∧ (st.cache.put (deriveKey args kwargs) (g args kwargs)).cache
        = m ++ [(deriveKey args kwargs, g args kwargs)] := by
    have hput := put_fresh (g args kwargs) hmiss
    by_cases hov : st.cache.capacity < (st.cache.cache.length : Int) + 1
    · refine ⟨st.cache.cache.tail, ?_, ?_⟩
      · rw [containsKey_eq_false_iff] at hmiss ⊢
        intro hkm
        apply hmiss
        rw [keysOf_tail] at hkm
        exact List.mem_of_mem_tail hkm
      · rw [hput, if_pos hov]
        have hcne : st.cache.cache ≠ [] := by
          intro hnil
          rw [hnil] at hov
          simp at hov
          omega
        exact tail_append_of_ne_nil _ hcne
    · exact ⟨st.cache.cache, hmiss, by rw [hput, if_neg hov]⟩
  have hhit : containsKey (deriveKey args kwargs)
      (st.cache.put (deriveKey args kwargs) (g args kwargs)).cache = true := by
    rw [hmc, containsKey_append]
    have hlast : containsKey (deriveKey args kwargs)
        [(deriveKey args kwargs, g args kwargs)] = true := by
      simp [containsKey]
    rw [hlast]
    simp
  have hval : ((st.cache.put (deriveKey args kwargs) (g args kwargs)).get
      (deriveKey args kwargs)).1 = some (g args kwargs) := by
    rw [get_found hhit]
    show lookupVal (deriveKey args kwargs)
        (moveToEnd (deriveKey args kwargs)
          (st.cache.put (deriveKey args kwargs) (g args kwargs)).cache)
      = some (g args kwargs)
    rw [hmc, moveToEnd_last _ _ hm, lookupVal_append_right _ _ hm]
    simp [lookupVal]
  have h2 : wrapper (E := E) hashable (fun a kw => Except.ok (g a kw))
      (⟨st.cache.put (deriveKey args kwargs) (g args kwargs), st.calls + 1⟩ : WrapState A V)
      args kwargs
      = (Except.ok (((st.cache.put (deriveKey args kwargs) (g args kwargs)).get
            (deriveKey args kwargs)).1),
         ⟨((st.cache.put (deriveKey args kwargs) (g args kwargs)).get
            (deriveKey args kwargs)).2, st.calls + 1⟩) := by
    simp [wrapper, hhash, hhit]
  rw [h1]
  refine ⟨rfl, ?_, ?_⟩
  · show (wrapper (E := E) hashable (fun a kw => Except.ok (g a kw))
      (⟨st.cache.put (deriveKey args kwargs) (g args kwargs), st.calls + 1⟩ : WrapState A V)
      args kwargs).1 = Except.ok (some (g args kwargs))
    rw [h2, hval]
  · show (wrapper (E := E) hashable (fun a kw => Except.ok (g a kw))
      (⟨st.cache.put (deriveKey args kwargs) (g args kwargs), st.calls + 1⟩ : WrapState A V)
      args kwargs).2.calls = st.calls + 1
    rw [h2]

theorem memoized_call_invokes_once_witness :
    ((wrapper (fun _ => true) (fun a _ => (Except.ok a.length : Except Unit Nat))
        (⟨mkLRUCache 3, 0⟩ : WrapState Nat Nat) [5] []).1 = Except.ok (some 1))
    ∧ ((wrapper (fun _ => true) (fun a _ => (Except.ok a.length : Except Unit Nat))
        (wrapper (fun _ => true) (fun a _ => (Except.ok a.length : Except Unit Nat))
          (⟨mkLRUCache 3, 0⟩ : WrapState Nat Nat) [5] []).2 [5] []).1 = Except.ok (some 1))
    ∧ ((wrapper (fun _ => true) (fun a _ => (Except.ok a.length : Except Unit Nat))
        (wrapper (fun _ => true) (fun a _ => (Except.ok a.length : Except Unit Nat))
          (⟨mkLRUCache 3, 0⟩ : WrapState Nat Nat) [5] []).2 [5] []).2.calls = 0 + 1) :=
  memoized_call_invokes_once (E := Unit) (fun _ => true) (fun a _ => a.length)
    (⟨mkLRUCache 3, 0⟩ : WrapState Nat Nat) [5] [] (by decide) (by decide) (by decide)

/-- C7: when the underlying function raises on the given arguments and the derived
key is not resident, both the synchronous and the asynchronous wrapper invoke the
function, store nothing for the key, leave the cache unchanged and propagate the
failure unchanged; a repeated call invokes the underlying function again and fails
the same way. -/
theorem failure_not_cached {A V E : Type} [DecidableEq A]
    (hashable : A → Bool) (f : List A → List (String × A) → Except E V)
    (st : WrapState A V) (args : List A) (kwargs : List (String × A)) (e : E)
    (hhash : (args.all hashable && kwargs.all (fun p => hashable p.2)) = true)
    (hmiss : containsKey (deriveKey args kwargs) st.cache.cache = false)
    (herr : f args kwargs = Except.error e) :
    ((wrapper hashable f st args kwargs).1 = Except.error (PyError.userError e))
    ∧ ((wrapper hashable f st args kwargs).2.cache = st.cache)
    ∧ ((wrapper hashable f st args kwargs).2.calls = st.calls + 1)
    ∧ ((wrapper hashable f (wrapper hashable f st args kwargs).2 args kwargs).1
      = Except.error (PyError.userError e))
    ∧ ((wrapper hashable f (wrapper hashable f st args kwargs).2 args kwargs).2.cache
      = st.cache)
    ∧ ((wrapper hashable f (wrapper hashable f st args kwargs).2 args kwargs).2.calls
      = st.calls + 2)
    ∧ ((asyncWrapper hashable f st args kwargs).1 = Except.error (PyError.userError e))
    ∧ ((asyncWrapper hashable f st args kwargs).2.cache = st.cache)
    ∧ ((asyncWrapper hashable f st args kwargs).2.calls = st.calls + 1) := by
  have h1 : wrapper hashable f st args kwargs
      = (Except.error (PyError.userError e), ⟨st.cache, st.calls + 1⟩) := by
    simp [wrapper, hhash, hmiss, herr]
  have h2 : wrapper hashable f (⟨st.cache, st.calls + 1⟩ : WrapState A V) args kwargs
      = (Except.error (PyError.userError e), ⟨st.cache, st.calls + 1 + 1⟩) := by
    simp [wrapper, hhash, hmiss, herr]
  have h3 : asyncWrapper hashable f st args kwargs
      = (Except.error (PyError.userError e), ⟨st.cache, st.calls + 1⟩) := by
    simp [asyncWrapper, hhash, hmiss, herr]
  rw [h1, h2, h3]
  exact ⟨rfl, rfl, rfl, rfl, rfl, rfl, rfl, rfl, rfl⟩

theorem failure_not_cached_witness :
    ((wrapper (fun _ => true) (fun _ _ => (Except.error 7 : Except Nat Nat))
        (⟨mkLRUCache 3, 0⟩ : WrapState Nat Nat) [9] []).1
      = Except.error (PyError.userError 7))
    ∧ ((wrapper (fun _ => true) (fun _ _ => (Except.error 7 : Except Nat Nat))
        (⟨mkLRUCache 3, 0⟩ : WrapState Nat Nat) [9] []).2.cache = mkLRUCache 3)
    ∧ ((wrapper (fun _ => true) (fun _ _ => (Except.error 7 : Except Nat Nat))
        (⟨mkLRUCache 3, 0⟩ : WrapState Nat Nat) [9] []).2.calls = 0 + 1)
    ∧ ((wrapper (fun _ => true) (fun _ _ => (Except.error 7 : Except Nat Nat))
        (wrapper (fun _ => true) (fun _ _ => (Except.error 7 : Except Nat Nat))
          (⟨mkLRUCache 3, 0⟩ : WrapState Nat Nat) [9] []).2 [9] []).1
      = Except.error (PyError.userError 7))
    ∧ ((wrapper (fun _ => true) (fun _ _ => (Except.error 7 : Except Nat Nat))
        (wrapper (fun _ => true) (fun _ _ => (Except.error 7 : Except Nat Nat))
          (⟨mkLRUCache 3, 0⟩ : WrapState Nat Nat) [9] []).2 [9] []).2.cache = mkLRUCache 3)
    ∧ ((wrapper (fun _ => true) (fun _ _ => (Except.error 7 : Except Nat Nat))
        (wrapper (fun _ => true) (fun _ _ => (Except.error 7 : Except Nat Nat))
          (⟨mkLRUCache 3, 0⟩ : WrapState Nat Nat) [9] []).2 [9] []).2.calls = 0 + 2)
    ∧ ((asyncWrapper (fun _ => true) (fun _ _ => (Except.error 7 : Except Nat Nat))
        (⟨mkLRUCache 3, 0⟩ : WrapState Nat Nat) [9] []).1
      = Except.error (PyError.userError 7))
    ∧ ((asyncWrapper (fun _ => true) (fun _ _ => (Except.error 7 : Except Nat Nat))
        (⟨mkLRUCache 3, 0⟩ : WrapState Nat Nat) [9] []).2.cache = mkLRUCache 3)
    ∧ ((asyncWrapper (fun _ => true) (fun _ _ => (Except.error 7 : Except Nat Nat))
        (⟨mkLRUCache 3, 0⟩ : WrapState Nat Nat) [9] []).2.calls = 0 + 1) :=
  failure_not_cached (fun _ => true) (fun _ _ => (Except.error 7 : Except Nat Nat))
    (⟨mkLRUCache 3, 0⟩ : WrapState Nat Nat) [9] [] 7 (by decide) (by decide) rfl

/-- C10: a call one of whose positional or keyword argument values cannot be
hashed fails at call time with the unhashable-argument `TypeError` for both
wrappers; the state — cache and invocation counter alike — is returned unchanged,
so the underlying function is not invoked. -/
theorem unhashable_arguments_fail {A V E : Type} [DecidableEq A]
    (hashable : A → Bool) (f : List A → List (String × A) → Except E V)
    (st : WrapState A V) (args : List A) (kwargs : List (String × A))
    (hbad : (args.all hashable && kwargs.all (fun p => hashable p.2)) = false) :
    wrapper hashable f st args kwargs = (Except.error PyError.typeError, st)
    ∧ asyncWrapper hashable f st args kwargs = (Except.error PyError.typeError, st) := by
  constructor
  · simp [wrapper, hbad]
  · simp [asyncWrapper, hbad]

theorem unhashable_arguments_fail_witness :
    wrapper (fun n => decide (n < 7)) (fun _ _ => (Except.ok 0 : Except Unit Nat))
      (⟨mkLRUCache 3, 0⟩ : WrapState Nat Nat) [9] []
      = (Except.error PyError.typeError, (⟨mkLRUCache 3, 0⟩ : WrapState Nat Nat))
    ∧ asyncWrapper (fun n => decide (n < 7)) (fun _ _ => (Except.ok 0 : Except Unit Nat))
      (⟨mkLRUCache 3, 0⟩ : WrapState Nat Nat) [9] []
      = (Except.error PyError.typeError, (⟨mkLRUCache 3, 0⟩ : WrapState Nat Nat)) :=
  unhashable_arguments_fail (fun n => decide (n < 7))
    (fun _ _ => (Except.ok 0 : Except Unit Nat))
    (⟨mkLRUCache 3, 0⟩ : WrapState Nat Nat) [9] [] (by decide)

/-- C6: two calls derive the same cache key iff their positional argument
sequences are equal element-wise and their keyword-argument sets are equal as
unordered collections of (name, value) pairs; reordering keyword arguments keeps
the key unchanged, while swapping two distinct positional arguments changes it. -/
theorem cache_key_equality {A : Type} [DecidableEq A] :
    (∀ (args1 args2 : List A) (kw1 kw2 : List (String × A)),
      deriveKey args1 kw1 = deriveKey args2 kw2
        ↔ (args1 = args2 ∧ kw1.toFinset = kw2.toFinset))
    ∧ (∀ (args : List A) (kw1 kw2 : List (String × A)), kw1.Perm kw2 →
        deriveKey args kw1 = deriveKey args kw2)
    ∧ (∀ (x y : A) (kw : List (String × A)), x ≠ y →
        deriveKey [x, y] kw ≠ deriveKey [y, x] kw) := by
  refine ⟨?_, ?_, ?_⟩
  · intro args1 args2 kw1 kw2
    simp [deriveKey, Prod.ext_iff]
  · intro args kw1 kw2 hperm
    simp only [deriveKey, Prod.mk.injEq, true_and]
    exact List.toFinset_eq_of_perm _ _ hperm
  · intro x y kw hxy h
    have hfst : ([x, y] : List A) = [y, x] := congrArg Prod.fst h
    simp at hfst
    exact hxy hfst.1

theorem cache_key_equality_witness :
    (deriveKey ([1, 2] : List Nat) [("a", 5), ("b", 7)]
      = deriveKey [1, 2] [("b", 7), ("a", 5)])
    ∧ deriveKey ([1, 2] : List Nat) [] ≠ deriveKey [2, 1] [] :=
  ⟨cache_key_equality.2.1 [1, 2] [("a", 5), ("b", 7)] [("b", 7), ("a", 5)] (by decide),
   cache_key_equality.2.2 1 2 [] (by decide)⟩

/-- C8 counterexample: constructing a store with capacity 0 does not fail — the
dataclass performs no validation and a store is created; the store is operational
and behaves as a silent no-op cache (a put into it is immediately evicted). -/
theorem zero_capacity_store_is_created :
    (mkLRUCache 0 : LRUCache Nat Nat).capacity = 0
    ∧ (mkLRUCache 0 : LRUCache Nat Nat).cache = []
    ∧ ((mkLRUCache 0 : LRUCache Nat Nat).put 1 2).cache = []
    ∧ ((mkLRUCache 0 : LRUCache Nat Nat).put 1 2).size = 0 := by
  decide

/-- C8 (amended): construction never validates the capacity — a store is created
for every integer capacity, including zero and negative values, and with a
non-positive capacity every put into the empty store leaves it empty (a silent
no-op cache); for positive capacity construction likewise succeeds with the given
capacity and an empty order. -/
theorem construction_accepts_any_capacity {K V : Type} [DecidableEq K]
    (cap : Int) (k : K) (v : V) :
    (mkLRUCache cap : LRUCache K V).capacity = cap
    ∧ (mkLRUCache cap : LRUCache K V).cache = []
    ∧ (cap ≤ 0 → ((mkLRUCache cap : LRUCache K V).put k v).cache = []) := by
  refine ⟨rfl, rfl, ?_⟩
  intro hle
  have hfresh : containsKey k (mkLRUCache cap : LRUCache K V).cache = false := rfl
  have hput := put_fresh v hfresh
  have hcond : (mkLRUCache cap : LRUCache K V).capacity
      < (((mkLRUCache cap : LRUCache K V).cache.length : Int) + 1) := by
    show cap < ((([] : List (K × V)).length : Int) + 1)
    simp
    omega
  rw [hput, if_pos hcond]
  rfl

theorem construction_accepts_any_capacity_witness :
    (mkLRUCache (-3) : LRUCache Nat Nat).capacity = -3
    ∧ (mkLRUCache (-3) : LRUCache Nat Nat).cache = []
    ∧ ((-3 : Int) ≤ 0 → ((mkLRUCache (-3) : LRUCache Nat Nat).put 1 2).cache = []) :=
  construction_accepts_any_capacity (-3) 1 2

/-- C9 counterexample: get carries no explicit presence signal — after storing the
value None under key 1, get returns for key 1 exactly what it returns for the
absent key 2, although only key 1 is resident. -/
theorem get_conflates_none_with_absent :
    ((((mkLRUCache 2 : LRUCache Nat (Option Nat)).put 1 none).getPy 1).1 = none)
    ∧ ((((mkLRUCache 2 : LRUCache Nat (Option Nat)).put 1 none).getPy 2).1 = none)
    ∧ ((mkLRUCache 2 : LRUCache Nat (Option Nat)).put 1 none).containsb 1 = true
    ∧ ((mkLRUCache 2 : LRUCache Nat (Option Nat)).put 1 none).containsb 2 = false := by
  decide

/-- C9 (amended): get returns the None sentinel for an absent key and the stored
value otherwise, so a key stored with the value None is indistinguishable from an
absent key through the return value of get alone; presence is observable only
through the separate contains probe. -/
theorem get_none_sentinel {K U : Type} [DecidableEq K] (s : LRUCache K (Option U)) (k : K)
    (hnd : (keysOf s.cache).Nodup) :
    (s.containsb k = false → (s.getPy k).1 = none)
    ∧ (lookupVal k s.cache = some none → (s.getPy k).1 = none ∧ s.containsb k = true) := by
  constructor
  · intro habs
    have hmiss : s.get k = (none, s) := get_miss habs
    simp [LRUCache.getPy, hmiss]
  · intro hstored
    have hck := containsKey_of_lookupVal hstored
    refine ⟨?_, hck⟩
    have hval : (s.get k).1 = lookupVal k s.cache := by
      rw [get_found hck]
      exact lookupVal_moveToEnd k hnd hck
    simp [LRUCache.getPy, hval, hstored]

theorem get_none_sentinel_witness :
    (((mkLRUCache 2 : LRUCache Nat (Option Nat)).put 1 none).containsb 1 = false →
      ((((mkLRUCache 2 : LRUCache Nat (Option Nat)).put 1 none).getPy 1).1 = none))
    ∧ (lookupVal 1 ((mkLRUCache 2 : LRUCache Nat (Option Nat)).put 1 none).cache = some none →
      ((((mkLRUCache 2 : LRUCache Nat (Option Nat)).put 1 none).getPy 1).1 = none
        ∧ ((mkLRUCache 2 : LRUCache Nat (Option Nat)).put 1 none).containsb 1 = true)) :=
  get_none_sentinel ((mkLRUCache 2 : LRUCache Nat (Option Nat)).put 1 none) 1 (by decide)

end GenericLRU
